import Mathlib

/-!
Verification of `graphql/schema/request.go`: request-to-operation resolution
and recursive fragment expansion.

The resolver `(*schema).Operation` and the expander
`recursivelyExpandFragmentSelections` are embedded directly from the source.
The external collaborators (query parser, request validator, variable
coercion) are out-of-scope per the design and are passed in as parameters
(`Externals`).  Package-level helpers that the source calls but whose
definitions are outside the visible slice (`collectFields`,
`Fragments.ForName`, `Operations.ForName`) are modelled from the spec and
marked as such in their doc comments.

Machine behaviour that cannot return (Go panics: nil-pointer dereference,
failed type assertion) is modelled by `none` in the expansion functions and
by the `RunResult.panicked` outcome in the resolver.  Recursion through the
document's fragment definitions is not structural, so the recursive
functions carry explicit fuel; exhausted fuel is also mapped to `none`,
and every claim about expansion is stated conditionally on a `some` result.
-/

/-- Kind tag of a named type, as in `ast.DefinitionKind`
(Scalar, Object, Interface, Union, Enum, InputObject). -/
inductive TypeKind where
  | scalarK
  | objectK
  | interfaceK
  | unionK
  | enumK
  | inputObjectK
deriving DecidableEq, Repr

/-- A node of a selection set, as in `ast.Selection`: a `*ast.Field`
(response key `al`, field name `nm`, arguments, declared type name
`tyName` standing for `Definition.Type.Name()`, and child selections),
an `*ast.FragmentSpread`, or an `*ast.InlineFragment`. -/
inductive Selection where
  | field (al nm : String) (args : List (String × String)) (tyName : String)
      (sub : List Selection)
  | fragmentSpread (nm : String)
  | inlineFragment (cond : String) (sub : List Selection)

/-- The parts of `ast.Schema` the source reads: `Types` (kind per type
name), `PossibleTypes` and `Implements`, each as association lists. -/
structure AstSchema where
  types : List (String × TypeKind)
  possibleTypes : List (String × List String)
  implementsRel : List (String × List String)

/-- The `schema` struct the resolver is a method of; the source
dereferences its `schema` field (`s.schema`). -/
structure SchemaWrap where
  schema : AstSchema

/-- An `ast.FragmentDefinition`: name, type condition, selection set. -/
structure FragmentDefinition where
  nm : String
  typeCondition : String
  selectionSet : List Selection

/-- An `ast.OperationDefinition`: name and selection set. -/
structure OperationDefinition where
  nm : String
  selectionSet : List Selection

/-- An `ast.QueryDocument`: operations and fragment definitions. -/
structure QueryDocument where
  operations : List OperationDefinition
  fragments : List FragmentDefinition

/-- A GraphQL `Request` as in the source: query text, operation name and
variables.  Variable values are opaque here, modelled as strings. -/
structure Request where
  query : String
  operationName : String
  vars : List (String × String)

/-- The `operation` struct the resolver returns on success. -/
structure OperationVal where
  op : OperationDefinition
  vars : List (String × String)
  query : String
  doc : QueryDocument
  inSchema : AstSchema

/-- The classes of error `Operation` can return, with their payloads. -/
inductive GqlError where
  | inputErr
  | parseErr (msg : String)
  | validationErr (msgs : List String)
  | ambiguousOp
  | unknownOp (nm : String)
  | variableErr (msg : String)
deriving DecidableEq, Repr

/-- Outcome of a resolution call: a resolved operation, a returned error,
or a Go panic (nil dereference / failed type assertion). -/
inductive RunResult where
  | ok (o : OperationVal)
  | err (e : GqlError)
  | panicked

/-- The external collaborators the resolver invokes: `parser.ParseQuery`,
`validator.Validate` and `validator.VariableValues`.  They are outside
this core per the design, so they are parameters of the embedding. -/
structure Externals where
  parseQuery : String → Except String QueryDocument
  validate : AstSchema → QueryDocument → List String
  variableValues : AstSchema → OperationDefinition → List (String × String) →
      Except String (List (String × String))

/-- The error message attached to each error class, with the texts the
source passes to `errors.New` / `errors.Errorf`. -/
def errMessage : GqlError → String
  | .inputErr => "no query string supplied in request"
  | .parseErr m => m
  | .validationErr ms => String.intercalate "; " ms
  | .ambiguousOp => "Operation name must by supplied when query has more than 1 operation."
  | .unknownOp n => "Supplied operation name " ++ n ++ " isn\x27t present in the request."
  | .variableErr m => m

/-- `schema.Types[ty]` followed by `.Kind`; `none` when the type is absent
(in Go the subsequent `.Kind` dereference would panic). -/
def lookupKind (sch : AstSchema) (ty : String) : Option TypeKind :=
  (sch.types.find? (fun p => p.1 == ty)).map (fun p => p.2)

/-- `schema.PossibleTypes[ty]` (names); a missing key is the empty list,
as for a Go map read. -/
def lookupPossibleTypes (sch : AstSchema) (ty : String) : List String :=
  ((sch.possibleTypes.find? (fun p => p.1 == ty)).map (fun p => p.2)).getD []

/-- `schema.Implements[ty]` (names); a missing key is the empty list. -/
def lookupImplements (sch : AstSchema) (ty : String) : List String :=
  ((sch.implementsRel.find? (fun p => p.1 == ty)).map (fun p => p.2)).getD []

/-- The `additionalTypes` the kind switch of
`recursivelyExpandFragmentSelections` selects: possible types for an
interface or union, implementing-relation entries for an object, and
`none` for every other kind (the switch's `default: return`). -/
def additionalTypes (sch : AstSchema) (k : TypeKind) (ty : String) : Option (List String) :=
  match k with
  | .interfaceK => some (lookupPossibleTypes sch ty)
  | .unionK => some (lookupPossibleTypes sch ty)
  | .objectK => some (lookupImplements sch ty)
  | _ => none

/-- The `satisfies` list built at the top of
`recursivelyExpandFragmentSelections`: the declared type name followed by
the additional type names; `none` when the kind hosts no fragments. -/
def satisfiesSet (sch : AstSchema) (k : TypeKind) (ty : String) : Option (List String) :=
  (additionalTypes sch k ty).map (fun ts => ty :: ts)

/-- Map a fallible function over a list, failing if any element fails;
the shape of a Go loop whose body may panic. -/
def optionMapList (f : α → Option β) : List α → Option (List β)
  | [] => some []
  | x :: xs =>
    match f x with
    | none => none
    | some y =>
      match optionMapList f xs with
      | none => none
      | some ys => some (y :: ys)

/-- Modelled from the spec: `doc.Fragments.ForName`, the fragment-definition
lookup used while collecting a fragment spread (the definition lives
outside the visible slice). -/
def lookupFragment (doc : QueryDocument) (n : String) : Option FragmentDefinition :=
  doc.fragments.find? (fun fd => fd.nm == n)

/-- Modelled from the spec: one merge step of field collection — "fields
with identical response keys originating from different branches are
merged into one response position (their sub-selections unioned)".  A
field whose response key is already present contributes its sub-selections
to the first occurrence; otherwise it is appended. -/
def mergeCollected : List Selection → Selection → List Selection
  | [], f => [f]
  | g :: gs, f =>
    match g, f with
    | .field al nm args ty sub, .field al2 _ _ _ sub2 =>
      if al2 = al then .field al nm args ty (sub ++ sub2) :: gs
      else .field al nm args ty sub :: mergeCollected gs f
    | g2, _ => g2 :: mergeCollected gs f

/-- Modelled from the spec: the walk of `collectFields` over a selection
set, carrying the fields collected so far.  A plain field is kept (merged
by response key); a fragment spread or inline fragment contributes its
recursively collected fields only if its type condition is among the
satisfying type names; a dangling fragment reference is a contract
violation, treated as fatal (`none`).  Fuel bounds the recursion through
fragment bodies; exhausted fuel is `none`. -/
def collectInto (doc : QueryDocument) (sats : List String) :
    Nat → List Selection → List Selection → Option (List Selection)
  | 0, _, _ => none
  | _ + 1, acc, [] => some acc
  | fuel + 1, acc, s :: rest =>
    match s with
    | .field al nm args ty sub =>
      collectInto doc sats fuel (mergeCollected acc (.field al nm args ty sub)) rest
    | .inlineFragment cond sub =>
      if cond ∈ sats then
        match collectInto doc sats fuel acc sub with
        | none => none
        | some acc2 => collectInto doc sats fuel acc2 rest
      else collectInto doc sats fuel acc rest
    | .fragmentSpread n =>
      match lookupFragment doc n with
      | none => none
      | some fd =>
        if fd.typeCondition ∈ sats then
          match collectInto doc sats fuel acc fd.selectionSet with
          | none => none
          | some acc2 => collectInto doc sats fuel acc2 rest
        else collectInto doc sats fuel acc rest
termination_by structural fuel _ _ => fuel

/-- Modelled from the spec: `collectFields` — collect the concrete fields a
selection set contributes, given the satisfying type names. -/
def collectFields (fuel : Nat) (doc : QueryDocument) (sats : List String)
    (sels : List Selection) : Option (List Selection) :=
  collectInto doc sats fuel [] sels

/-- `recursivelyExpandFragmentSelections`: compute the field's satisfying
type names from its declared type's kind (absent type: Go would
nil-dereference, `none` here; non-composite kind: return the field
unmodified), replace the field's selection set by the collected fields,
then recurse into each of them.  A non-field argument models the
`s.(*ast.Field)` type assertion at the call sites, which panics. -/
def recursivelyExpandFragmentSelections (sch : AstSchema) (doc : QueryDocument) :
    Nat → Selection → Option Selection
  | fuel, .field al nm args ty sub =>
    match lookupKind sch ty with
    | none => none
    | some k =>
      match satisfiesSet sch k ty with
      | none => some (.field al nm args ty sub)
      | some sats =>
        match fuel with
        | 0 => none
        | fuel2 + 1 =>
          match collectFields fuel2 doc sats sub with
          | none => none
          | some collected =>
            match optionMapList (recursivelyExpandFragmentSelections sch doc fuel2) collected with
            | none => none
            | some expanded => some (.field al nm args ty expanded)
  | _, _ => none
termination_by structural fuel _ => fuel

/-- Modelled from the spec: `doc.Operations.ForName` — an empty name
resolves to the sole operation when there is exactly one; otherwise the
first operation with a matching name, if any. -/
def forName (ops : List OperationDefinition) (nm : String) : Option OperationDefinition :=
  if nm = "" ∧ ops.length = 1 then ops.head?
  else ops.find? (fun op => op.nm == nm)

/-- `(*schema).Operation`: the resolution pipeline of the source — missing
request or empty query, parse, validate (the receiver is first
dereferenced here: a `none` schema panics), ambiguous-operation check,
operation selection, variable coercion, then fragment expansion of every
top-level selection (each cast to `*ast.Field`). -/
def Operation (ext : Externals) (s : Option SchemaWrap) (req : Option Request)
    (fuel : Nat) : RunResult :=
  match req with
  | none => .err .inputErr
  | some r =>
    if r.query = "" then .err .inputErr
    else
      match ext.parseQuery r.query with
      | .error e => .err (.parseErr e)
      | .ok doc =>
        match s with
        | none => .panicked
        | some sw =>
          match ext.validate sw.schema doc with
          | e :: es => .err (.validationErr (e :: es))
          | [] =>
            if doc.operations.length > 1 ∧ r.operationName = "" then .err .ambiguousOp
            else
              match forName doc.operations r.operationName with
              | none => .err (.unknownOp r.operationName)
              | some op =>
                match ext.variableValues sw.schema op r.vars with
                | .error e => .err (.variableErr e)
                | .ok vars =>
                  match optionMapList
                      (recursivelyExpandFragmentSelections sw.schema doc fuel)
                      op.selectionSet with
                  | none => .panicked
                  | some sels =>
                    .ok { op := { op with selectionSet := sels }, vars := vars,
                          query := r.query, doc := doc, inSchema := sw.schema }

/-- Whether a selection node is a plain field (the `s.(*ast.Field)` type
assertion succeeds on it). -/
def isFld : Selection → Bool
  | .field .. => true
  | _ => false

/-- The field's declared type cannot host fragments: its kind is known and
the kind switch of the expander takes the `default` branch. -/
def isLeafType (sch : AstSchema) (ty : String) : Bool :=
  match lookupKind sch ty with
  | none => false
  | some k => (satisfiesSet sch k ty).isNone

/-- Every selection reachable from this node is a plain field — the
post-expansion invariant of the spec. -/
inductive AllFields : Selection → Prop where
  | field : ∀ al nm args ty sub, (∀ s ∈ sub, AllFields s) →
      AllFields (.field al nm args ty sub)

/-- Modelled from the spec: part of what the external validator guarantees
about a validated document.  `N` is a superset of the selection nodes in
play, closed under taking child selections of fields and inline
fragments. -/
def childClosed (N : List Selection) : Prop :=
  ∀ s ∈ N,
    (∀ al nm args ty sub, s = Selection.field al nm args ty sub → ∀ c ∈ sub, c ∈ N) ∧
    (∀ cond sub, s = Selection.inlineFragment cond sub → ∀ c ∈ sub, c ∈ N)

/-- Modelled from the spec: `N` also covers the bodies of the document's
fragment definitions (fragment references resolve inside `N`). -/
def fragClosed (doc : QueryDocument) (N : List Selection) : Prop :=
  ∀ n fd, lookupFragment doc n = some fd → ∀ c ∈ fd.selectionSet, c ∈ N

/-- Modelled from the spec: "fragments cannot occur here" — a validated
field whose declared type is non-composite has no sub-selections. -/
def leafRule (sch : AstSchema) (N : List Selection) : Prop :=
  ∀ s ∈ N, ∀ al nm args ty sub, s = Selection.field al nm args ty sub →
    isLeafType sch ty = true → sub = []

/-- A field that can contribute to the response position of the selection
list `sels`: it is a member of `sels` itself, or it is reachable through
an inline fragment or a fragment spread occurring in `sels` (regardless
of the type condition — an overapproximation of what collection keeps). -/
inductive Contributes (doc : QueryDocument) : List Selection → Selection → Prop where
  | direct : ∀ sels al nm args ty sub,
      Selection.field al nm args ty sub ∈ sels →
      Contributes doc sels (Selection.field al nm args ty sub)
  | inlineF : ∀ sels cond body f,
      Selection.inlineFragment cond body ∈ sels →
      Contributes doc body f → Contributes doc sels f
  | spread : ∀ sels n fd f,
      Selection.fragmentSpread n ∈ sels →
      lookupFragment doc n = some fd →
      Contributes doc fd.selectionSet f → Contributes doc sels f

/-- A field contributed at a response path below the root selection set
`roots`: the path is the sequence of response keys of the enclosing
fields.  Fields merged into one response position are exactly same-path,
same-response-key fields. -/
inductive AtPath (doc : QueryDocument) (roots : List Selection) :
    List String → Selection → Prop where
  | root : ∀ f, Contributes doc roots f → AtPath doc roots [] f
  | child : ∀ p al nm args ty sub f,
      AtPath doc roots p (Selection.field al nm args ty sub) →
      Contributes doc sub f → AtPath doc roots (p ++ [al]) f

/-- Modelled from the spec: the validator's merge rule, scoped exactly as
the spec words it — "fields with identical response keys originating from
different branches are merged into one response position".  Only fields
contributed at the same response path with the same response key are
constrained, and only up to response shape: their declared types agree on
being leaf (non-composite) or composite.  Same-key fields at different
response positions are unconstrained. -/
def mergeCoherent (sch : AstSchema) (doc : QueryDocument) (roots : List Selection) : Prop :=
  ∀ p f1 f2, AtPath doc roots p f1 → AtPath doc roots p f2 →
    ∀ al nm1 args1 ty1 sub1 nm2 args2 ty2 sub2,
      f1 = Selection.field al nm1 args1 ty1 sub1 →
      f2 = Selection.field al nm2 args2 ty2 sub2 →
      isLeafType sch ty1 = isLeafType sch ty2

theorem contributes_mono {doc : QueryDocument} {a b : List Selection}
    (hab : ∀ x ∈ a, x ∈ b) {f : Selection} (h : Contributes doc a f) :
    Contributes doc b f := by
  cases h with
  | direct _ al nm args ty sub hmem => exact .direct b al nm args ty sub (hab _ hmem)
  | inlineF _ cond body f hmem hbody => exact .inlineF b cond body f (hab _ hmem) hbody
  | spread _ n fd f hmem hfd hbody => exact .spread b n fd f (hab _ hmem) hfd hbody

theorem contributes_append_elim {doc : QueryDocument} {a b : List Selection} {f : Selection}
    (h : Contributes doc (a ++ b) f) : Contributes doc a f ∨ Contributes doc b f := by
  cases h with
  | direct _ al nm args ty sub hmem =>
    rcases List.mem_append.mp hmem with hm | hm
    · exact Or.inl (.direct a al nm args ty sub hm)
    · exact Or.inr (.direct b al nm args ty sub hm)
  | inlineF _ cond body f hmem hbody =>
    rcases List.mem_append.mp hmem with hm | hm
    · exact Or.inl (.inlineF a cond body f hm hbody)
    · exact Or.inr (.inlineF b cond body f hm hbody)
  | spread _ n fd f hmem hfd hbody =>
    rcases List.mem_append.mp hmem with hm | hm
    · exact Or.inl (.spread a n fd f hm hfd hbody)
    · exact Or.inr (.spread b n fd f hm hfd hbody)

theorem contributes_mem {doc : QueryDocument} {N : List Selection}
    (hChild : childClosed N) (hFrag : fragClosed doc N) :
    ∀ {sels : List Selection} {f : Selection}, Contributes doc sels f →
      (∀ x ∈ sels, x ∈ N) → f ∈ N := by
  intro sels f h
  induction h with
  | direct sels al nm args ty sub hmem =>
    intro hsels
    exact hsels _ hmem
  | inlineF sels cond body f hmem hbody ih =>
    intro hsels
    exact ih (fun x hx => (hChild _ (hsels _ hmem)).2 cond body rfl x hx)
  | spread sels n fd f hmem hfd hbody ih =>
    intro _
    exact ih (fun x hx => hFrag n fd hfd x hx)

/-- The precondition for expanding a selection contributed at response
path `q`: if it is a field, a non-composite declared type forces an empty
selection set, its children live in `N`, and its child selections
contribute below `q ++ [response key]`. -/
def FieldOK (sch : AstSchema) (doc : QueryDocument) (N roots : List Selection)
    (q : List String) (s : Selection) : Prop :=
  ∀ al nm args ty sub, s = Selection.field al nm args ty sub →
    (isLeafType sch ty = true → sub = []) ∧ (∀ c ∈ sub, c ∈ N) ∧
    (∀ x, Contributes doc sub x → AtPath doc roots (q ++ [al]) x)

/-- Invariant of the collected-fields accumulator while collecting the
contributors of response path `q`: each entry is a field obeying the leaf
rule, with children in `N`, whose child selections contribute below
`q ++ [response key]`, and whose response key and declared type are those
of some field contributed at `q`. -/
def CollInv (sch : AstSchema) (doc : QueryDocument) (N roots : List Selection)
    (q : List String) (g : Selection) : Prop :=
  ∃ al nm args ty sub, g = Selection.field al nm args ty sub ∧
    (isLeafType sch ty = true → sub = []) ∧ (∀ c ∈ sub, c ∈ N) ∧
    (∀ x, Contributes doc sub x → AtPath doc roots (q ++ [al]) x) ∧
    ∃ wnm wargs wsub, AtPath doc roots q (Selection.field al wnm wargs ty wsub)

theorem CollInv.fieldOK {sch : AstSchema} {doc : QueryDocument}
    {N roots : List Selection} {q : List String} {g : Selection}
    (h : CollInv sch doc N roots q g) : FieldOK sch doc N roots q g := by
  obtain ⟨al, nm, args, ty, sub, rfl, hleaf, hsub, hat, -⟩ := h
  intro al2 nm2 args2 ty2 sub2 heq
  cases heq
  exact ⟨hleaf, hsub, hat⟩

theorem mergeCollected_inv {sch : AstSchema} {doc : QueryDocument}
    {N roots : List Selection} {q : List String}
    (hChild : childClosed N) (hLeaf : leafRule sch N)
    (hCoh : mergeCoherent sch doc roots)
    {al nm args ty sub}
    (hmem : Selection.field al nm args ty sub ∈ N)
    (hat : AtPath doc roots q (Selection.field al nm args ty sub)) :
    ∀ acc, (∀ g ∈ acc, CollInv sch doc N roots q g) →
      ∀ g ∈ mergeCollected acc (Selection.field al nm args ty sub),
        CollInv sch doc N roots q g := by
  intro acc
  induction acc with
  | nil =>
    intro _ g hg
    simp only [mergeCollected, List.mem_singleton] at hg
    subst hg
    exact ⟨al, nm, args, ty, sub,
      rfl,
      fun hlf => hLeaf _ hmem al nm args ty sub rfl hlf,
      fun c hc => (hChild _ hmem).1 al nm args ty sub rfl c hc,
      fun x hx => .child q al nm args ty sub x hat hx,
      ⟨nm, args, sub, hat⟩⟩
  | cons g0 gs ih =>
    intro hacc g hg
    have hg0 : CollInv sch doc N roots q g0 := hacc g0 (by simp)
    have hgs : ∀ g ∈ gs, CollInv sch doc N roots q g := fun g hg => hacc g (by simp [hg])
    obtain ⟨al0, nm0, args0, ty0, sub0, rfl, hleaf0, hsub0, hat0,
      wnm, wargs, wsub, hw0⟩ := hg0
    simp only [mergeCollected] at hg
    by_cases hal : al = al0
    · simp only [if_pos hal, List.mem_cons] at hg
      rcases hg with hg | hg
      · subst hg
        have hty : isLeafType sch ty0 = isLeafType sch ty :=
          hCoh q _ _ hw0 hat al0 wnm wargs ty0 wsub nm args ty sub rfl (by rw [hal])
        refine ⟨al0, nm0, args0, ty0, sub0 ++ sub, rfl, ?_, ?_, ?_,
          wnm, wargs, wsub, hw0⟩
        · intro hlf
          have h1 : sub0 = [] := hleaf0 hlf
          have h2 : sub = [] := by
            refine hLeaf _ hmem al nm args ty sub rfl ?_
            rw [← hty]; exact hlf
          simp [h1, h2]
        · intro c hc
          rcases List.mem_append.mp hc with hc | hc
          · exact hsub0 c hc
          · exact (hChild _ hmem).1 al nm args ty sub rfl c hc
        · intro x hx
          rcases contributes_append_elim hx with hx | hx
          · exact hat0 x hx
          · have hxat := AtPath.child q al nm args ty sub x hat hx
            rw [hal] at hxat
            exact hxat
      · exact hgs g hg
    · simp only [if_neg hal, List.mem_cons] at hg
      rcases hg with hg | hg
      · subst hg
        exact ⟨al0, nm0, args0, ty0, sub0, rfl, hleaf0, hsub0, hat0,
          wnm, wargs, wsub, hw0⟩
      · exact ih hgs g hg

theorem collectInto_inv {sch : AstSchema} {doc : QueryDocument} {N roots : List Selection}
    (hChild : childClosed N) (hFrag : fragClosed doc N)
    (hLeaf : leafRule sch N) (hCoh : mergeCoherent sch doc roots) (sats : List String)
    {scope : List Selection} {q : List String}
    (hscopeN : ∀ x ∈ scope, x ∈ N)
    (hscopeAt : ∀ f, Contributes doc scope f → AtPath doc roots q f) :
    ∀ fuel sels acc out,
      (∀ f, Contributes doc sels f → Contributes doc scope f) →
      (∀ g ∈ acc, CollInv sch doc N roots q g) →
      collectInto doc sats fuel acc sels = some out →
      ∀ g ∈ out, CollInv sch doc N roots q g := by
  intro fuel
  induction fuel with
  | zero =>
    intro sels acc out _ _ h
    exact Option.noConfusion h
  | succ fuel ih =>
    intro sels acc out htr hacc h
    cases sels with
    | nil =>
      simp only [collectInto, Option.some.injEq] at h
      subst h
      exact hacc
    | cons s rest =>
      have htrRest : ∀ f, Contributes doc rest f → Contributes doc scope f :=
        fun f hf => htr f (contributes_mono (fun x hx => by simp [hx]) hf)
      cases s with
      | field al nm args ty sub =>
        simp only [collectInto] at h
        have hcf : Contributes doc scope (Selection.field al nm args ty sub) :=
          htr _ (.direct _ al nm args ty sub (by simp))
        exact ih rest _ out htrRest
          (mergeCollected_inv hChild hLeaf hCoh
            (contributes_mem hChild hFrag hcf hscopeN) (hscopeAt _ hcf) acc hacc) h
      | inlineFragment cond sub =>
        simp only [collectInto] at h
        by_cases hc : cond ∈ sats
        · rw [if_pos hc] at h
          cases hbody : collectInto doc sats fuel acc sub with
          | none => rw [hbody] at h; exact Option.noConfusion h
          | some acc2 =>
            rw [hbody] at h
            have htrSub : ∀ f, Contributes doc sub f → Contributes doc scope f :=
              fun f hf => htr f (.inlineF _ cond sub f (by simp) hf)
            have hacc2 := ih sub acc acc2 htrSub hacc hbody
            exact ih rest acc2 out htrRest hacc2 h
        · rw [if_neg hc] at h
          exact ih rest acc out htrRest hacc h
      | fragmentSpread n =>
        cases hfd : lookupFragment doc n with
        | none =>
          simp only [collectInto, hfd] at h
          exact Option.noConfusion h
        | some fd =>
          simp only [collectInto, hfd] at h
          by_cases hc : fd.typeCondition ∈ sats
          · rw [if_pos hc] at h
            cases hbody : collectInto doc sats fuel acc fd.selectionSet with
            | none => rw [hbody] at h; exact Option.noConfusion h
            | some acc2 =>
              rw [hbody] at h
              have htrSub : ∀ f, Contributes doc fd.selectionSet f →
                  Contributes doc scope f :=
                fun f hf => htr f (.spread _ n fd f (by simp) hfd hf)
              have hacc2 := ih fd.selectionSet acc acc2 htrSub hacc hbody
              exact ih rest acc2 out htrRest hacc2 h
          · rw [if_neg hc] at h
            exact ih rest acc out htrRest hacc h

theorem optionMapList_forall {α β : Type _} {f : α → Option β} {P : α → Prop} {Q : β → Prop}
    (hf : ∀ x y, P x → f x = some y → Q y) :
    ∀ l outs, (∀ x ∈ l, P x) → optionMapList f l = some outs → ∀ y ∈ outs, Q y := by
  intro l
  induction l with
  | nil =>
    intro outs _ h y hy
    simp only [optionMapList, Option.some.injEq] at h
    subst h
    simp at hy
  | cons x xs ih =>
    intro outs hP h y hy
    cases hfx : f x with
    | none =>
      simp only [optionMapList, hfx] at h
      exact Option.noConfusion h
    | some y0 =>
      simp only [optionMapList, hfx] at h
      cases hrest : optionMapList f xs with
      | none =>
        simp only [hrest] at h
        exact Option.noConfusion h
      | some ys =>
        simp only [hrest, Option.some.injEq] at h
        subst h
        rcases List.mem_cons.mp hy with hy | hy
        · subst hy
          exact hf x y (hP x (by simp)) hfx
        · exact ih ys (fun z hz => hP z (by simp [hz])) hrest y hy

theorem expand_AllFields {sch : AstSchema} {doc : QueryDocument} {N roots : List Selection}
    (hChild : childClosed N) (hFrag : fragClosed doc N)
    (hLeaf : leafRule sch N) (hCoh : mergeCoherent sch doc roots) :
    ∀ fuel,
      (∀ q s out, FieldOK sch doc N roots q s →
        recursivelyExpandFragmentSelections sch doc fuel s = some out → AllFields out) ∧
      (∀ q l outs, (∀ x ∈ l, FieldOK sch doc N roots q x) →
        optionMapList (recursivelyExpandFragmentSelections sch doc fuel) l = some outs →
        ∀ y ∈ outs, AllFields y) := by
  intro fuel
  induction fuel with
  | zero =>
    have h1 : ∀ q s out, FieldOK sch doc N roots q s →
        recursivelyExpandFragmentSelections sch doc 0 s = some out → AllFields out := by
      intro q s out hOK h
      cases s with
      | field al nm args ty sub =>
        cases hk : lookupKind sch ty with
        | none =>
          simp only [recursivelyExpandFragmentSelections, hk] at h
          exact Option.noConfusion h
        | some k =>
          cases hs : satisfiesSet sch k ty with
          | none =>
            simp only [recursivelyExpandFragmentSelections, hk, hs, Option.some.injEq] at h
            subst h
            have hleaf : isLeafType sch ty = true := by
              simp [isLeafType, hk, hs]
            have hsub : sub = [] := (hOK al nm args ty sub rfl).1 hleaf
            subst hsub
            exact AllFields.field al nm args ty [] (by simp)
          | some sats =>
            simp only [recursivelyExpandFragmentSelections, hk, hs] at h
            exact Option.noConfusion h
      | fragmentSpread n =>
        simp only [recursivelyExpandFragmentSelections] at h
        exact Option.noConfusion h
      | inlineFragment cond sub =>
        simp only [recursivelyExpandFragmentSelections] at h
        exact Option.noConfusion h
    exact ⟨h1, fun q l outs hl h => optionMapList_forall (h1 q) l outs hl h⟩
  | succ fuel ih =>
    have h1 : ∀ q s out, FieldOK sch doc N roots q s →
        recursivelyExpandFragmentSelections sch doc (fuel + 1) s = some out → AllFields out := by
      intro q s out hOK h
      cases s with
      | field al nm args ty sub =>
        cases hk : lookupKind sch ty with
        | none =>
          simp only [recursivelyExpandFragmentSelections, hk] at h
          exact Option.noConfusion h
        | some k =>
          cases hs : satisfiesSet sch k ty with
          | none =>
            simp only [recursivelyExpandFragmentSelections, hk, hs, Option.some.injEq] at h
            subst h
            have hleaf : isLeafType sch ty = true := by
              simp [isLeafType, hk, hs]
            have hsub : sub = [] := (hOK al nm args ty sub rfl).1 hleaf
            subst hsub
            exact AllFields.field al nm args ty [] (by simp)
          | some sats =>
            simp only [recursivelyExpandFragmentSelections, hk, hs] at h
            cases hcol : collectFields fuel doc sats sub with
            | none =>
              simp only [hcol] at h
              exact Option.noConfusion h
            | some collected =>
              simp only [hcol] at h
              cases hexp : optionMapList
                  (recursivelyExpandFragmentSelections sch doc fuel) collected with
              | none =>
                simp only [hexp] at h
                exact Option.noConfusion h
              | some expanded =>
                simp only [hexp, Option.some.injEq] at h
                subst h
                have hcolOK : ∀ g ∈ collected, FieldOK sch doc N roots (q ++ [al]) g := by
                  intro g hg
                  exact (collectInto_inv hChild hFrag hLeaf hCoh sats
                    (hOK al nm args ty sub rfl).2.1 (hOK al nm args ty sub rfl).2.2
                    fuel sub [] collected (fun f hf => hf) (by simp) hcol g hg).fieldOK
                exact AllFields.field al nm args ty expanded
                  (ih.2 (q ++ [al]) collected expanded hcolOK hexp)
      | fragmentSpread n =>
        simp only [recursivelyExpandFragmentSelections] at h
        exact Option.noConfusion h
      | inlineFragment cond sub =>
        simp only [recursivelyExpandFragmentSelections] at h
        exact Option.noConfusion h
    exact ⟨h1, fun q l outs hl h => optionMapList_forall (h1 q) l outs hl h⟩

theorem expand_nonField {sch : AstSchema} {doc : QueryDocument} {fuel : Nat}
    {s : Selection} (h : isFld s = false) :
    recursivelyExpandFragmentSelections sch doc fuel s = none := by
  cases s with
  | field al nm args ty sub => simp [isFld] at h
  | fragmentSpread n => simp [recursivelyExpandFragmentSelections]
  | inlineFragment cond sub => simp [recursivelyExpandFragmentSelections]

theorem optionMapList_none_of_mem {α β : Type _} {f : α → Option β} :
    ∀ l : List α, (∃ x ∈ l, f x = none) → optionMapList f l = none := by
  intro l
  induction l with
  | nil =>
    rintro ⟨x, hx, -⟩
    simp at hx
  | cons x xs ih =>
    rintro ⟨z, hz, hfz⟩
    rcases List.mem_cons.mp hz with hz | hz
    · subst hz
      simp [optionMapList, hfz]
    · have hxs := ih ⟨z, hz, hfz⟩
      simp only [optionMapList, hxs]
      cases hfx : f x <;> rfl

/-- Concrete schema for the witnesses: interface `Animal` with possible
type `Dog`, object types `Query` and `Dog` (the latter implementing
`Animal`), scalar `String`. -/
def schWit : AstSchema :=
  { types := [("Query", .objectK), ("Animal", .interfaceK), ("Dog", .objectK),
              ("String", .scalarK)],
    possibleTypes := [("Animal", ["Dog"])],
    implementsRel := [("Dog", ["Animal"])] }

def schWrapWit : SchemaWrap := { schema := schWit }

def nameF : Selection := .field "name" "name" [] "String" []

def petF : Selection := .field "pet" "pet" [] "Animal" [nameF]

def opWit : OperationDefinition := { nm := "", selectionSet := [petF] }

def docWit : QueryDocument := { operations := [opWit], fragments := [] }

def extWit : Externals :=
  { parseQuery := fun _ => .ok docWit,
    validate := fun _ _ => [],
    variableValues := fun _ _ v => .ok v }

def reqWit : Request := { query := "q", operationName := "", vars := [] }

def NWit : List Selection := [petF, nameF]

/-- C1: for every field handed to the expander, the satisfying type names
are computed from the declared type's kind — Interface or Union: the
declared name together with its possible types from the schema index;
Object: the declared name together with its implements-relation entries;
any other kind: the expander returns the field with its selection set
unmodified. -/
theorem claim_C1_satisfies_computation (sch : AstSchema) (ty : String) (k : TypeKind)
    (hk : lookupKind sch ty = some k) :
    ((k = .interfaceK ∨ k = .unionK) →
      satisfiesSet sch k ty = some (ty :: lookupPossibleTypes sch ty) ∧
      ∀ x, x ∈ ty :: lookupPossibleTypes sch ty ↔
        (x = ty ∨ x ∈ lookupPossibleTypes sch ty))
  ∧ (k = .objectK →
      satisfiesSet sch k ty = some (ty :: lookupImplements sch ty) ∧
      ∀ x, x ∈ ty :: lookupImplements sch ty ↔
        (x = ty ∨ x ∈ lookupImplements sch ty))
  ∧ ((k = .scalarK ∨ k = .enumK ∨ k = .inputObjectK) →
      ∀ (doc : QueryDocument) (fuel : Nat) (al nm : String)
        (args : List (String × String)) (sub : List Selection),
        recursivelyExpandFragmentSelections sch doc fuel (.field al nm args ty sub) =
          some (.field al nm args ty sub)) := by
  refine ⟨?_, ?_, ?_⟩
  · rintro (rfl | rfl) <;> exact ⟨rfl, fun x => by simp⟩
  · rintro rfl
    exact ⟨rfl, fun x => by simp⟩
  · rintro hk3 doc fuel al nm args sub
    have hsat : satisfiesSet sch k ty = none := by
      rcases hk3 with rfl | rfl | rfl <;> rfl
    simp [recursivelyExpandFragmentSelections, hk, hsat]

theorem claim_C1_witness :
    satisfiesSet schWit .interfaceK "Animal" = some ["Animal", "Dog"] :=
  ((claim_C1_satisfies_computation schWit "Animal" .interfaceK rfl).1 (Or.inl rfl)).1

/-- C8: a missing request, or a request with empty query text, fails with
the input error; no operation is produced. -/
theorem claim_C8_empty_query_input_error (ext : Externals) (s : Option SchemaWrap)
    (fuel : Nat) :
    Operation ext s none fuel = .err .inputErr ∧
    ∀ r : Request, r.query = "" → Operation ext s (some r) fuel = .err .inputErr := by
  constructor
  · rfl
  · intro r hq
    simp [Operation, hq]

theorem claim_C8_witness :
    Operation extWit (some schWrapWit)
      (some { query := "", operationName := "", vars := [] }) 1 = .err .inputErr :=
  (claim_C8_empty_query_input_error extWit (some schWrapWit) 1).2 _ rfl

/-- C9: expansion rewrites only the field's selection set — response key,
field name, arguments and declared type are returned unchanged. -/
theorem claim_C9_frame_preservation (sch : AstSchema) (doc : QueryDocument) (fuel : Nat)
    (al nm : String) (args : List (String × String)) (ty : String)
    (sub : List Selection) (out : Selection)
    (h : recursivelyExpandFragmentSelections sch doc fuel (.field al nm args ty sub) =
      some out) :
    ∃ sub2, out = .field al nm args ty sub2 := by
  cases hk : lookupKind sch ty with
  | none =>
    simp only [recursivelyExpandFragmentSelections, hk] at h
    exact Option.noConfusion h
  | some k =>
    cases hs : satisfiesSet sch k ty with
    | none =>
      simp only [recursivelyExpandFragmentSelections, hk, hs, Option.some.injEq] at h
      exact ⟨sub, h.symm⟩
    | some sats =>
      simp only [recursivelyExpandFragmentSelections, hk, hs] at h
      cases fuel with
      | zero => exact Option.noConfusion h
      | succ fuel2 =>
        cases hcol : collectFields fuel2 doc sats sub with
        | none =>
          simp only [hcol] at h
          exact Option.noConfusion h
        | some collected =>
          simp only [hcol] at h
          cases hexp : optionMapList
              (recursivelyExpandFragmentSelections sch doc fuel2) collected with
          | none =>
            simp only [hexp] at h
            exact Option.noConfusion h
          | some expanded =>
            simp only [hexp, Option.some.injEq] at h
            exact ⟨expanded, h.symm⟩

theorem claim_C9_witness :
    ∃ sub2,
      Selection.field "pet" "pet" [] "Animal"
        [Selection.field "name" "name" [] "String" [],
         Selection.field "breed" "breed" [] "String" []] =
      Selection.field "pet" "pet" [] "Animal" sub2 :=
  claim_C9_frame_preservation schWit docWit 10 "pet" "pet" [] "Animal"
    [Selection.field "name" "name" [] "String" [],
     Selection.inlineFragment "Dog" [Selection.field "breed" "breed" [] "String" []]]
    _ rfl

/-- C10: resolution is deterministic — componentwise-equal requests
resolved against the same schema give identical results. -/
theorem claim_C10_deterministic (ext : Externals) (s : Option SchemaWrap) (fuel : Nat)
    (r1 r2 : Request) (hq : r1.query = r2.query)
    (hn : r1.operationName = r2.operationName) (hv : r1.vars = r2.vars) :
    Operation ext s (some r1) fuel = Operation ext s (some r2) fuel := by
  have h : r1 = r2 := by
    cases r1
    cases r2
    simp_all
  rw [h]

theorem claim_C10_witness :
    Operation extWit (some schWrapWit) (some reqWit) 10 =
    Operation extWit (some schWrapWit)
      (some { query := "q", operationName := "", vars := [] }) 10 :=
  claim_C10_deterministic extWit (some schWrapWit) 10 reqWit
    { query := "q", operationName := "", vars := [] } rfl rfl rfl

/-- C3: the resolver fails with the first applicable error class, checked
in this order: empty input, parse error, schema-validation errors (the
full list), ambiguous operation, unknown operation, variable coercion;
when no class applies it produces exactly one expanded operation. -/
theorem claim_C3_error_precedence (ext : Externals) (sw : SchemaWrap) (r : Request)
    (fuel : Nat) :
    (r.query = "" → Operation ext (some sw) (some r) fuel = .err .inputErr)
  ∧ (∀ e, r.query ≠ "" → ext.parseQuery r.query = .error e →
      Operation ext (some sw) (some r) fuel = .err (.parseErr e))
  ∧ (∀ doc e es, r.query ≠ "" → ext.parseQuery r.query = .ok doc →
      ext.validate sw.schema doc = e :: es →
      Operation ext (some sw) (some r) fuel = .err (.validationErr (e :: es)))
  ∧ (∀ doc, r.query ≠ "" → ext.parseQuery r.query = .ok doc →
      ext.validate sw.schema doc = [] →
      doc.operations.length > 1 → r.operationName = "" →
      Operation ext (some sw) (some r) fuel = .err .ambiguousOp)
  ∧ (∀ doc, r.query ≠ "" → ext.parseQuery r.query = .ok doc →
      ext.validate sw.schema doc = [] →
      ¬(doc.operations.length > 1 ∧ r.operationName = "") →
      forName doc.operations r.operationName = none →
      Operation ext (some sw) (some r) fuel = .err (.unknownOp r.operationName))
  ∧ (∀ doc op e, r.query ≠ "" → ext.parseQuery r.query = .ok doc →
      ext.validate sw.schema doc = [] →
      ¬(doc.operations.length > 1 ∧ r.operationName = "") →
      forName doc.operations r.operationName = some op →
      ext.variableValues sw.schema op r.vars = .error e →
      Operation ext (some sw) (some r) fuel = .err (.variableErr e))
  ∧ (∀ doc op vars sels, r.query ≠ "" → ext.parseQuery r.query = .ok doc →
      ext.validate sw.schema doc = [] →
      ¬(doc.operations.length > 1 ∧ r.operationName = "") →
      forName doc.operations r.operationName = some op →
      ext.variableValues sw.schema op r.vars = .ok vars →
      optionMapList (recursivelyExpandFragmentSelections sw.schema doc fuel)
        op.selectionSet = some sels →
      Operation ext (some sw) (some r) fuel =
        .ok { op := { op with selectionSet := sels }, vars := vars,
              query := r.query, doc := doc, inSchema := sw.schema }) := by
  refine ⟨?_, ?_, ?_, ?_, ?_, ?_, ?_⟩
  · intro hq
    simp [Operation, hq]
  · intro e hq hp
    simp [Operation, hq, hp]
  · intro doc e es hq hp hv
    simp [Operation, hq, hp, hv]
  · intro doc hq hp hv hlen hn
    simp [Operation, hq, hp, hv, hlen, hn]
  · intro doc hq hp hv hna hfn
    simp [Operation, hq, hp, hv, hna, hfn]
  · intro doc op e hq hp hv hna hfn hvv
    simp [Operation, hq, hp, hv, hna, hfn, hvv]
  · intro doc op vars sels hq hp hv hna hfn hvv hexp
    simp [Operation, hq, hp, hv, hna, hfn, hvv, hexp]

theorem claim_C3_witness :
    Operation extWit (some schWrapWit)
      (some { query := "", operationName := "", vars := [] }) 2 = .err .inputErr :=
  (claim_C3_error_precedence extWit schWrapWit
    { query := "", operationName := "", vars := [] } 2).1 rfl

/-- C4 (original claim, refuted): a missing (nil) schema together with a
non-empty, parseable query does not yield the empty-input error; the
receiver is only dereferenced at the validation step, after parsing, and
there the call panics. -/
theorem claim_C4_counterexample :
    Operation extWit none (some { query := "q", operationName := "", vars := [] }) 1 =
      .panicked ∧
    RunResult.panicked ≠ RunResult.err .inputErr := by
  refine ⟨rfl, ?_⟩
  intro h
  exact RunResult.noConfusion h

/-- C4 (amended): only a missing request or empty query text is guarded by
the empty-input check.  A missing schema is never checked: parsing still
runs, a parse failure is still reported as a parse error, and with a
parseable non-empty query the call panics (nil dereference at the
validation step) instead of returning an error. -/
theorem claim_C4_missing_schema_behaviour (ext : Externals) (fuel : Nat) :
    Operation ext none none fuel = .err .inputErr
  ∧ (∀ r : Request, r.query = "" → Operation ext none (some r) fuel = .err .inputErr)
  ∧ (∀ r e, r.query ≠ "" → ext.parseQuery r.query = .error e →
      Operation ext none (some r) fuel = .err (.parseErr e))
  ∧ (∀ r doc, r.query ≠ "" → ext.parseQuery r.query = .ok doc →
      Operation ext none (some r) fuel = .panicked) := by
  refine ⟨rfl, ?_, ?_, ?_⟩
  · intro r hq
    simp [Operation, hq]
  · intro r e hq hp
    simp [Operation, hq, hp]
  · intro r doc hq hp
    simp [Operation, hq, hp]

theorem claim_C4_witness :
    Operation extWit none (some { query := "w", operationName := "", vars := [] }) 1 =
      .panicked :=
  (claim_C4_missing_schema_behaviour extWit 1).2.2.2
    { query := "w", operationName := "", vars := [] } docWit (by simp) rfl

/-- C7: an operation name (non-empty) that names no operation in the
parsed document makes resolution fail with a single unknown-operation
error whose message contains the supplied name. -/
theorem claim_C7_unknown_operation_error (ext : Externals) (sw : SchemaWrap)
    (r : Request) (fuel : Nat) (doc : QueryDocument)
    (hq : r.query ≠ "") (hp : ext.parseQuery r.query = .ok doc)
    (hv : ext.validate sw.schema doc = []) (hn : r.operationName ≠ "")
    (hmiss : ∀ op ∈ doc.operations, op.nm ≠ r.operationName) :
    Operation ext (some sw) (some r) fuel = .err (.unknownOp r.operationName) ∧
    ∃ a b, errMessage (.unknownOp r.operationName) = a ++ r.operationName ++ b := by
  have hfn : forName doc.operations r.operationName = none := by
    rw [forName, if_neg (by simp [hn])]
    rw [List.find?_eq_none]
    intro op hop
    simp [hmiss op hop]
  have hna : ¬(doc.operations.length > 1 ∧ r.operationName = "") := fun h => hn h.2
  refine ⟨?_, "Supplied operation name ", " isn\x27t present in the request.", rfl⟩
  simp [Operation, hq, hp, hv, hna, hfn]

theorem claim_C7_witness :
    Operation extWit (some schWrapWit)
      (some { query := "q", operationName := "nope", vars := [] }) 2 =
      .err (.unknownOp "nope") :=
  (claim_C7_unknown_operation_error extWit schWrapWit
    { query := "q", operationName := "nope", vars := [] } 2 docWit
    (by simp) rfl rfl (by simp)
    (by
      intro op hop
      simp only [docWit, opWit] at hop
      simp only [List.mem_singleton] at hop
      subst hop
      simp)).1

/-- C6: a document with exactly one operation together with an empty
operation name resolves to that sole operation — neither the
ambiguous-operation nor the unknown-operation error is raised, and when
variable coercion and expansion go through, the result is that
operation. -/
theorem claim_C6_single_operation_empty_name (ext : Externals) (sw : SchemaWrap)
    (r : Request) (fuel : Nat) (doc : QueryDocument) (op0 : OperationDefinition)
    (hq : r.query ≠ "") (hp : ext.parseQuery r.query = .ok doc)
    (hops : doc.operations = [op0]) (hv : ext.validate sw.schema doc = [])
    (hn : r.operationName = "") :
    forName doc.operations r.operationName = some op0
  ∧ Operation ext (some sw) (some r) fuel ≠ .err .ambiguousOp
  ∧ (∀ m, Operation ext (some sw) (some r) fuel ≠ .err (.unknownOp m))
  ∧ (∀ vars sels, ext.variableValues sw.schema op0 r.vars = .ok vars →
      optionMapList (recursivelyExpandFragmentSelections sw.schema doc fuel)
        op0.selectionSet = some sels →
      Operation ext (some sw) (some r) fuel =
        .ok { op := { op0 with selectionSet := sels }, vars := vars,
              query := r.query, doc := doc, inSchema := sw.schema }) := by
  have hfn : forName doc.operations r.operationName = some op0 := by
    simp [forName, hops, hn]
  have hna : ¬(doc.operations.length > 1 ∧ r.operationName = "") := by
    simp [hops]
  have hOp : Operation ext (some sw) (some r) fuel =
      (match ext.variableValues sw.schema op0 r.vars with
       | .error e => .err (.variableErr e)
       | .ok vars =>
         match optionMapList (recursivelyExpandFragmentSelections sw.schema doc fuel)
             op0.selectionSet with
         | none => .panicked
         | some sels =>
           .ok { op := { op0 with selectionSet := sels }, vars := vars,
                 query := r.query, doc := doc, inSchema := sw.schema }) := by
    simp [Operation, hq, hp, hv, hna, hfn]
  refine ⟨hfn, ?_, ?_, ?_⟩
  · rw [hOp]
    cases hvv : ext.variableValues sw.schema op0 r.vars with
    | error e => simp
    | ok vars =>
      cases hexp : optionMapList (recursivelyExpandFragmentSelections sw.schema doc fuel)
          op0.selectionSet with
      | none => simp
      | some sels => simp
  · intro m
    rw [hOp]
    cases hvv : ext.variableValues sw.schema op0 r.vars with
    | error e => simp
    | ok vars =>
      cases hexp : optionMapList (recursivelyExpandFragmentSelections sw.schema doc fuel)
          op0.selectionSet with
      | none => simp
      | some sels => simp
  · intro vars sels hvv hexp
    rw [hOp, hvv, hexp]

theorem claim_C6_witness :
    Operation extWit (some schWrapWit) (some reqWit) 10 =
      .ok { op := { opWit with selectionSet := [petF] }, vars := [],
            query := reqWit.query, doc := docWit, inSchema := schWit } :=
  (claim_C6_single_operation_empty_name extWit schWrapWit reqWit 10 docWit opWit
    (by simp [reqWit]) rfl rfl rfl rfl).2.2.2 [] [petF] rfl rfl

/-- C5: the resolver assumes every top-level selection of the selected
operation is a plain field; a fragment spread or inline fragment at the
top level fails the unconditional `*ast.Field` type assertion and
resolution panics instead of expanding it or returning an error. -/
theorem claim_C5_toplevel_fragment_panics (ext : Externals) (sw : SchemaWrap)
    (r : Request) (fuel : Nat) (doc : QueryDocument) (op : OperationDefinition)
    (vars : List (String × String))
    (hq : r.query ≠ "") (hp : ext.parseQuery r.query = .ok doc)
    (hv : ext.validate sw.schema doc = [])
    (hna : ¬(doc.operations.length > 1 ∧ r.operationName = ""))
    (hfn : forName doc.operations r.operationName = some op)
    (hvv : ext.variableValues sw.schema op r.vars = .ok vars)
    (hbad : ∃ x ∈ op.selectionSet, isFld x = false) :
    Operation ext (some sw) (some r) fuel = .panicked := by
  have hexp : optionMapList (recursivelyExpandFragmentSelections sw.schema doc fuel)
      op.selectionSet = none := by
    obtain ⟨x, hx, hxf⟩ := hbad
    exact optionMapList_none_of_mem _ ⟨x, hx, expand_nonField hxf⟩
  simp [Operation, hq, hp, hv, hna, hfn, hvv, hexp]

def opTopFrag : OperationDefinition :=
  { nm := "q", selectionSet := [.inlineFragment "Query" []] }

def docTopFrag : QueryDocument := { operations := [opTopFrag], fragments := [] }

def extTopFrag : Externals :=
  { parseQuery := fun _ => .ok docTopFrag,
    validate := fun _ _ => [],
    variableValues := fun _ _ v => .ok v }

theorem claim_C5_witness :
    Operation extTopFrag (some schWrapWit)
      (some { query := "q", operationName := "q", vars := [] }) 5 = .panicked :=
  claim_C5_toplevel_fragment_panics extTopFrag schWrapWit
    { query := "q", operationName := "q", vars := [] } 5 docTopFrag opTopFrag []
    (by simp) rfl rfl (by simp) rfl rfl
    ⟨.inlineFragment "Query" [], by simp [opTopFrag], rfl⟩

/-- Declared type name of a field node (empty for fragment nodes). -/
def selTy : Selection → String
  | .field _ _ _ ty _ => ty
  | _ => ""

/-- C2: for every request that resolves successfully against a validated
document — validation modelled by a node set `N` closed under children
and fragment bodies and obeying the leaf rule, together with the merge
rule scoped to response positions: same-response-key fields contributed
at the same response path agree on being leaf or composite — every
selection reachable from the returned operation's selection set is a
plain field: no fragment spread or inline fragment remains. -/
theorem claim_C2_no_fragments_after_expansion (ext : Externals) (sw : SchemaWrap)
    (r : Request) (fuel : Nat) (doc : QueryDocument) (N : List Selection)
    (opv : OperationVal)
    (hp : ext.parseQuery r.query = .ok doc)
    (hChild : childClosed N) (hFrag : fragClosed doc N)
    (hLeaf : leafRule sw.schema N)
    (hTop : ∀ op, forName doc.operations r.operationName = some op →
      ∀ x ∈ op.selectionSet, x ∈ N)
    (hCoh : ∀ op, forName doc.operations r.operationName = some op →
      mergeCoherent sw.schema doc op.selectionSet)
    (hres : Operation ext (some sw) (some r) fuel = .ok opv) :
    ∀ x ∈ opv.op.selectionSet, AllFields x := by
  by_cases hq : r.query = ""
  · simp [Operation, hq] at hres
  · simp only [Operation, if_neg hq, hp] at hres
    cases hv : ext.validate sw.schema doc with
    | cons e es =>
      simp only [hv] at hres
      exact RunResult.noConfusion hres
    | nil =>
      simp only [hv] at hres
      by_cases hamb : doc.operations.length > 1 ∧ r.operationName = ""
      · rw [if_pos hamb] at hres
        exact RunResult.noConfusion hres
      · rw [if_neg hamb] at hres
        cases hfn : forName doc.operations r.operationName with
        | none =>
          simp only [hfn] at hres
          exact RunResult.noConfusion hres
        | some op =>
          simp only [hfn] at hres
          cases hvv : ext.variableValues sw.schema op r.vars with
          | error e =>
            simp only [hvv] at hres
            exact RunResult.noConfusion hres
          | ok vars =>
            simp only [hvv] at hres
            cases hexp : optionMapList
                (recursivelyExpandFragmentSelections sw.schema doc fuel)
                op.selectionSet with
            | none =>
              simp only [hexp] at hres
              exact RunResult.noConfusion hres
            | some sels =>
              simp only [hexp, RunResult.ok.injEq] at hres
              subst hres
              intro x hx
              have hOK : ∀ y ∈ op.selectionSet,
                  FieldOK sw.schema doc N op.selectionSet [] y := by
                intro y hy al nm args ty sub heq
                refine ⟨hLeaf y (hTop op hfn y hy) al nm args ty sub heq,
                  (hChild y (hTop op hfn y hy)).1 al nm args ty sub heq, ?_⟩
                intro c hc
                refine AtPath.child [] al nm args ty sub c (AtPath.root _ ?_) hc
                exact Contributes.direct _ al nm args ty sub (heq ▸ hy)
              exact (expand_AllFields hChild hFrag hLeaf (hCoh op hfn) fuel).2
                [] op.selectionSet sels hOK hexp x hx

theorem NWit_childClosed : childClosed NWit := by
  intro s hs
  simp only [NWit, petF, nameF, List.mem_cons, List.mem_singleton,
    List.not_mem_nil, or_false] at hs
  constructor
  · intro al nm args ty sub heq c hc
    rcases hs with rfl | rfl
    · cases heq
      simp only [List.mem_singleton] at hc
      subst hc
      simp [NWit, nameF]
    · cases heq
      simp at hc
  · intro cond sub heq c hc
    rcases hs with rfl | rfl
    · exact Selection.noConfusion heq
    · exact Selection.noConfusion heq

theorem NWit_fragClosed : fragClosed docWit NWit := by
  intro n fd h
  simp [lookupFragment, docWit] at h

theorem NWit_leafRule : leafRule schWit NWit := by
  intro s hs al nm args ty sub heq hleaf
  simp only [NWit, petF, nameF, List.mem_cons, List.mem_singleton,
    List.not_mem_nil, or_false] at hs
  rcases hs with rfl | rfl
  · cases heq
    exact absurd hleaf (by decide)
  · cases heq
    rfl

theorem contributes_docWit_petF {f : Selection}
    (h : Contributes docWit [petF] f) : f = petF := by
  cases h with
  | direct _ al nm args ty sub hmem =>
    simp only [List.mem_singleton] at hmem
    exact hmem
  | inlineF _ cond body f hmem hbody =>
    simp [petF] at hmem
  | spread _ n fd f hmem hfd hbody =>
    simp [petF] at hmem

theorem contributes_docWit_nameF {f : Selection}
    (h : Contributes docWit [nameF] f) : f = nameF := by
  cases h with
  | direct _ al nm args ty sub hmem =>
    simp only [List.mem_singleton] at hmem
    exact hmem
  | inlineF _ cond body f hmem hbody =>
    simp [nameF] at hmem
  | spread _ n fd f hmem hfd hbody =>
    simp [nameF] at hmem

theorem contributes_docWit_nil {f : Selection}
    (h : Contributes docWit [] f) : False := by
  cases h with
  | direct _ al nm args ty sub hmem => simp at hmem
  | inlineF _ cond body f hmem hbody => simp at hmem
  | spread _ n fd f hmem hfd hbody => simp at hmem

theorem atPath_docWit : ∀ p f, AtPath docWit [petF] p f →
    (p = [] ∧ f = petF) ∨ (p = ["pet"] ∧ f = nameF) := by
  intro p f h
  induction h with
  | root f hc => exact Or.inl ⟨rfl, contributes_docWit_petF hc⟩
  | child p al nm args ty sub f hat hc ih =>
    rcases ih with ⟨hp, hf⟩ | ⟨hp, hf⟩
    · subst hp
      simp only [petF] at hf
      injection hf with h1 h2 h3 h4 h5
      subst h1
      subst h5
      exact Or.inr ⟨rfl, contributes_docWit_nameF hc⟩
    · subst hp
      simp only [nameF] at hf
      injection hf with h1 h2 h3 h4 h5
      subst h5
      exact (contributes_docWit_nil hc).elim

theorem NWit_mergeCoherent : mergeCoherent schWit docWit [petF] := by
  intro p f1 f2 h1 h2 al nm1 args1 ty1 sub1 nm2 args2 ty2 sub2 he1 he2
  have ht1 : selTy f1 = ty1 := by rw [he1]; rfl
  have ht2 : selTy f2 = ty2 := by rw [he2]; rfl
  rcases atPath_docWit p f1 h1 with ⟨hp1, rfl⟩ | ⟨hp1, rfl⟩
  · rcases atPath_docWit p f2 h2 with ⟨hp2, rfl⟩ | ⟨hp2, rfl⟩
    · rw [← ht1, ← ht2]
    · subst hp1
      exact absurd hp2 (by decide)
  · rcases atPath_docWit p f2 h2 with ⟨hp2, rfl⟩ | ⟨hp2, rfl⟩
    · subst hp1
      exact absurd hp2 (by decide)
    · rw [← ht1, ← ht2]

theorem claim_C2_witness : AllFields petF :=
  claim_C2_no_fragments_after_expansion extWit schWrapWit reqWit 10 docWit NWit
    { op := { nm := "", selectionSet := [petF] }, vars := [],
      query := "q", doc := docWit, inSchema := schWit }
    rfl NWit_childClosed NWit_fragClosed NWit_leafRule
    (by
      intro op h x hx
      rw [show forName docWit.operations reqWit.operationName = some opWit from rfl] at h
      injection h with h
      subst h
      simp only [opWit, List.mem_singleton] at hx
      subst hx
      simp [NWit])
    (by
      intro op h
      rw [show forName docWit.operations reqWit.operationName = some opWit from rfl] at h
      injection h with h
      subst h
      exact NWit_mergeCoherent)
    rfl petF (by simp [opWit])
